import Mathlib

/-!
Verification of the `DifferentialLogging` source operator of
`declarative-dataflow` (`src/sources/differential_logging.rs`).

The operator demultiplexes a stream of Differential logging events into one
output channel per requested attribute key.  We embed the routing core as pure
functions over explicit state: the per-batch session buffers become an
association list from attribute key to the list of tuples written into that
session, and the channel allocation / final collection of `source` becomes an
explicit fold over the requested keys, with the `unwrap` on
`streams.remove(aid)` modelled as an `Option`.

Machine-integer notes: `operator`, `length`, `length1`, `length2` and
`complete` are `usize` fields of the logging events and are modelled as `Nat`;
the `as i64` conversions and the signed subtraction
`(complete_size as i64) - (x.length1 + x.length2) as i64` are modelled as the
exact casts into `Int` (the values are batch lengths, far below overflow), and
`isize` multiplicities become `Int`.  `Duration` timestamps are modelled as
`Nat` (nanoseconds).
-/

set_option autoImplicit false

namespace DifferentialLogging

/-- The payload values used by the operator: `Value::Eid` (an entity id,
`u64`) and `Value::Number` (an `i64`), from the crate's `Value` enum. -/
inductive Value where
  | Eid (e : Nat)
  | Number (n : Int)
  deriving DecidableEq, Repr

/-- The fields of `differential_dataflow::logging::BatchEvent` used by the
operator: `operator: usize`, `length: usize`. -/
structure BatchEvent where
  operator : Nat
  length : Nat
  deriving DecidableEq, Repr

/-- The fields of `differential_dataflow::logging::MergeEvent` used by the
operator: `operator: usize`, `length1: usize`, `length2: usize`,
`complete: Option<usize>`. -/
structure MergeEvent where
  operator : Nat
  length1 : Nat
  length2 : Nat
  complete : Option Nat
  deriving DecidableEq, Repr

/-- The event kinds of `differential_dataflow::logging::DifferentialEvent`:
the two kinds the operator matches, plus a catch-all `Other` for every kind
handled by the wildcard arm `_ => \x7b\x7d`. -/
inductive DifferentialEvent where
  | Batch (x : BatchEvent)
  | Merge (x : MergeEvent)
  | Other
  deriving DecidableEq, Repr

/-- One replayed logging record `(time, worker, datum)` as drained from
`demux_buffer` (line 77): the event's own logical time, the worker id
(ignored by the core), and the event. -/
structure RawEventRecord where
  time : Nat
  worker : Nat
  event : DifferentialEvent
  deriving DecidableEq, Repr

/-- One delivered input batch, as seen by `input.for_each(|time, data| ...)`:
the progress notification's capability time and the drained records.  The
records carry their own logical times, which need not equal `ntime`. -/
structure DeliveredBatch where
  ntime : Nat
  data : List RawEventRecord
  deriving DecidableEq, Repr

/-- An emitted tuple `((Value, Value), Duration, isize)`. -/
abbrev EmittedTuple := (Value × Value) × Nat × Int

/-- The session buffers open during one delivered batch: one entry per
requested attribute key, holding the tuples written so far. -/
abbrev Sessions := List (String × List EmittedTuple)

/-- The well-known attribute key `A::from("differential.event/size")`
(line 60). -/
def sizeKey : String := "differential.event/size"

/-- Lookup in an association list by key; models `HashMap::get` /
`HashMap::get_mut` resolution on the maps keyed by attribute. -/
def findA {β : Type} : List (String × β) → String → Option β
  | [], _ => none
  | p :: rest, k => if p.1 = k then some p.2 else findA rest k

/-- Model of `sessions.get_mut(&aid).map(|s| s.give(tup))`: if a session for
`aid` is open, append `tup` to it; otherwise do nothing (the silent drop of
an unrequested attribute). -/
def giveTo (s : Sessions) (aid : String) (tup : EmittedTuple) : Sessions :=
  s.map (fun p => if p.1 = aid then (p.1, p.2 ++ [tup]) else p)

/-- The match arms of the demux loop (lines 78-101): a `Batch` event writes
`((Eid(operator), Number(length)), time, 1)` to the size session; a `Merge`
event with `complete = Some(c)` writes
`((Eid(operator), Number(c - (length1 + length2))), time, 1)`; an incomplete
merge or any other kind writes nothing. -/
def processEvent (s : Sessions) (r : RawEventRecord) : Sessions :=
  match r.event with
  | DifferentialEvent.Batch x =>
      giveTo s sizeKey
        ((Value.Eid x.operator, Value.Number (x.length : Int)), r.time, 1)
  | DifferentialEvent.Merge x =>
      match x.complete with
      | some c =>
          giveTo s sizeKey
            ((Value.Eid x.operator,
              Value.Number ((c : Int) - ((x.length1 + x.length2 : Nat) : Int))),
             r.time, 1)
      | none => s
  | DifferentialEvent.Other => s

/-- Processing one delivered batch under a set of open sessions: open one
empty session per key of the handle map (lines 72-75), then drain the
records through the demux loop (lines 77-102).  The notification time
`b.ntime` scopes the sessions but is never written into a tuple. -/
def processBatch (keys : List String) (b : DeliveredBatch) : Sessions :=
  b.data.foldl processEvent (keys.map (fun a => (a, [])))

/-- Flushing a batch's closed sessions into the per-channel output history:
each channel's accumulated output is extended by what its session buffered. -/
def flushInto (acc : Sessions) (s : Sessions) : Sessions :=
  acc.map (fun p => (p.1, p.2 ++ (findA s p.1).getD []))

/-- A whole run of the demux operator with an explicit session-opening order
`ord` (the iteration order of the `handles` HashMap, which the host chooses):
every delivered batch is processed and flushed in sequence, producing the
per-channel output history. -/
def runCoreWith (ord : List String) (input : List DeliveredBatch) : Sessions :=
  input.foldl (fun acc b => flushInto acc (processBatch ord b))
    (ord.map (fun a => (a, [])))

/-- A whole run of the demux operator for a requested attribute list: the
key set of the `wrappers` / `handles` HashMaps is the set of distinct
requested keys (duplicate inserts overwrite). -/
def runCore (attributes : List String) (input : List DeliveredBatch) : Sessions :=
  runCoreWith attributes.dedup input

/-- Modelled from the spec: the per-attribute input-semantics tag, an opaque
passthrough label (the spec names the examples "raw" vs. "logical"); the
crate type `InputSemantics` is outside the excerpt, only its variant `Raw`
is named by the source (line 112). -/
inductive InputSemantics where
  | Raw
  | Logical
  deriving DecidableEq, Repr

/-- Modelled from the spec: the channel descriptor attached to each returned
attribute stream; the crate type `AttributeConfig` is outside the excerpt,
only its constructor `AttributeConfig::real_time(semantics)` is used by the
source (line 112). -/
inductive AttributeConfig where
  | real_time (semantics : InputSemantics)
  deriving DecidableEq, Repr

/-- Model of `HashMap::insert` on an association list: replace the value of
an existing key, otherwise add the binding. -/
def insertA (m : List (String × Nat)) (k : String) (v : Nat) : List (String × Nat) :=
  if k ∈ m.map Prod.fst then m.map (fun p => if p.1 = k then (p.1, v) else p)
  else m ++ [(k, v)]

/-- The channel-allocation loop of `source` (lines 51-55): for each requested
attribute, `demux.new_output()` creates a fresh output channel (identified
here by its creation index `n`) and the streams map records
`aid -> channel`, overwriting on a duplicate key. -/
def allocStreams : List String → Nat → List (String × Nat) → List (String × Nat)
  | [], _, m => m
  | a :: rest, n, m => allocStreams rest (n + 1) (insertA m a n)

/-- Model of `HashMap::remove`: take the binding of `k` out of the map,
returning the value and the remaining map, or `none` when absent. -/
def removeA : List (String × Nat) → String → Option (Nat × List (String × Nat))
  | [], _ => none
  | p :: rest, k =>
      if p.1 = k then some (p.2, rest)
      else (removeA rest k).map (fun q => (q.1, p :: q.2))

/-- The final collection of `source` (lines 107-116): for each requested
attribute in order, emit `(aid, AttributeConfig::real_time(InputSemantics::Raw),
streams.remove(aid).unwrap())`; the `unwrap` of a missing key (a duplicate
already removed) is modelled as `none` (a panic). -/
def collectOutputs : List String → List (String × Nat) →
    Option (List (String × AttributeConfig × Nat))
  | [], _ => some []
  | a :: rest, streams =>
      match removeA streams a with
      | none => none
      | some (ch, streams2) =>
          match collectOutputs rest streams2 with
          | none => none
          | some out =>
              some ((a, AttributeConfig.real_time InputSemantics.Raw, ch) :: out)

/-- The channel-descriptor part of `source`: allocate one output per
requested attribute, then collect `(aid, config, stream)` triples in request
order; `none` models the panic of `streams.remove(aid).unwrap()`. -/
def sourceOutputs (attributes : List String) :
    Option (List (String × AttributeConfig × Nat)) :=
  collectOutputs attributes (allocStreams attributes 0 [])

/-- The requested channel ids `n, n+1, ...` of the next `len` calls to
`demux.new_output()`. -/
def chanIds : Nat → Nat → List Nat
  | _, 0 => []
  | n, len + 1 => n :: chanIds (n + 1) len

/-- Closed form of the `(aid, config, stream)` triples `source` returns for a
duplicate-free request list starting at channel id `n`. -/
def mkOut : List String → Nat → List (String × AttributeConfig × Nat)
  | [], _ => []
  | a :: rest, n =>
      (a, AttributeConfig.real_time InputSemantics.Raw, n) :: mkOut rest (n + 1)

/-- Closed form of the streams map built for a duplicate-free request list
starting at channel id `n`. -/
def zipIds : List String → Nat → List (String × Nat)
  | [], _ => []
  | a :: rest, n => (a, n) :: zipIds rest (n + 1)

/-- Specification-side description of the tuples a single record contributes
to the size session. -/
def eventEmits (r : RawEventRecord) : List EmittedTuple :=
  match r.event with
  | DifferentialEvent.Batch x =>
      [((Value.Eid x.operator, Value.Number (x.length : Int)), r.time, 1)]
  | DifferentialEvent.Merge x =>
      match x.complete with
      | some c =>
          [((Value.Eid x.operator,
             Value.Number ((c : Int) - ((x.length1 + x.length2 : Nat) : Int))),
            r.time, 1)]
      | none => []
  | DifferentialEvent.Other => []

/-- Specification-side description of the tuples a record list contributes to
the size session. -/
def batchEmits (data : List RawEventRecord) : List EmittedTuple :=
  data.flatMap eventEmits

/-- Specification-side description of the whole per-channel size output of a
run. -/
def allEmits (input : List DeliveredBatch) : List EmittedTuple :=
  input.flatMap (fun b => batchEmits b.data)

theorem findA_map_nil (ord : List String) (aid : String) :
    findA (ord.map (fun a => (a, ([] : List EmittedTuple)))) aid
      = if aid ∈ ord then some [] else none := by
  induction ord with
  | nil => simp [findA]
  | cons a rest ih =>
      by_cases h : a = aid
      · simp [findA, h]
      · have h2 : ¬aid = a := fun hh => h hh.symm
        simp [findA, h, h2, ih]

theorem findA_giveTo (s : Sessions) (k : String) (t : EmittedTuple) (aid : String) :
    findA (giveTo s k t) aid
      = if aid = k then (findA s aid).map (fun l => l ++ [t]) else findA s aid := by
  induction s with
  | nil => cases Decidable.em (aid = k) <;> simp_all [findA, giveTo]
  | cons p rest ih =>
      by_cases hak : aid = k
      · subst hak
        by_cases hpa : p.1 = aid <;> simp_all [findA, giveTo]
      · by_cases hpk : p.1 = k <;> by_cases hpa : p.1 = aid <;>
          simp_all [findA, giveTo]

theorem findA_processEvent (s : Sessions) (r : RawEventRecord) (aid : String) :
    findA (processEvent s r) aid
      = if aid = sizeKey then (findA s aid).map (fun l => l ++ eventEmits r)
        else findA s aid := by
  rcases r with ⟨t, w, e⟩
  cases e with
  | Batch x => simp [processEvent, eventEmits, findA_giveTo]
  | Merge x =>
      cases hc : x.complete with
      | some c => simp [processEvent, eventEmits, hc, findA_giveTo]
      | none =>
          simp only [processEvent, eventEmits, hc]
          cases Decidable.em (aid = sizeKey) <;>
            cases hf : findA s aid <;> simp_all
  | Other =>
      simp only [processEvent, eventEmits]
      cases Decidable.em (aid = sizeKey) <;>
        cases hf : findA s aid <;> simp_all

theorem findA_foldl_processEvent (data : List RawEventRecord) (s : Sessions)
    (aid : String) :
    findA (data.foldl processEvent s) aid
      = if aid = sizeKey then (findA s aid).map (fun l => l ++ batchEmits data)
        else findA s aid := by
  induction data generalizing s with
  | nil =>
      cases Decidable.em (aid = sizeKey) <;>
        cases hf : findA s aid <;> simp_all [batchEmits]
  | cons r rest ih =>
      simp only [List.foldl_cons, ih, findA_processEvent]
      cases Decidable.em (aid = sizeKey) <;>
        cases hf : findA s aid <;> simp_all [batchEmits]

theorem findA_processBatch (keys : List String) (b : DeliveredBatch) (aid : String) :
    findA (processBatch keys b) aid
      = if aid ∈ keys then
          some (if aid = sizeKey then batchEmits b.data else [])
        else none := by
  simp only [processBatch, findA_foldl_processEvent, findA_map_nil]
  by_cases hk : aid ∈ keys <;> by_cases hs : aid = sizeKey <;> simp [hk, hs]

theorem findA_flushInto (acc s : Sessions) (aid : String) :
    findA (flushInto acc s) aid
      = (findA acc aid).map (fun l => l ++ (findA s aid).getD []) := by
  induction acc with
  | nil => simp [findA, flushInto]
  | cons p rest ih =>
      by_cases hpa : p.1 = aid <;> simp_all [findA, flushInto]

theorem findA_runCoreWith (ord : List String) (input : List DeliveredBatch)
    (aid : String) :
    findA (runCoreWith ord input) aid
      = if aid ∈ ord then
          some (if aid = sizeKey then allEmits input else [])
        else none := by
  have aux : ∀ (inp : List DeliveredBatch) (acc : Sessions),
      findA (inp.foldl (fun acc b => flushInto acc (processBatch ord b)) acc) aid
        = (findA acc aid).map
            (fun l => l ++ if aid ∈ ord ∧ aid = sizeKey then allEmits inp else []) := by
    intro inp
    induction inp with
    | nil =>
        intro acc
        cases hf : findA acc aid <;> simp [hf, allEmits]
    | cons b rest ih =>
        intro acc
        simp only [List.foldl_cons, ih, findA_flushInto, findA_processBatch]
        by_cases hs : aid = sizeKey
        · subst hs
          by_cases hk : sizeKey ∈ ord <;>
            cases hf : findA acc sizeKey <;>
              simp [hk, hf, allEmits, List.append_assoc]
        · by_cases hk : aid ∈ ord <;>
            cases hf : findA acc aid <;>
              simp [hk, hs, hf]
  simp only [runCoreWith, aux, findA_map_nil]
  by_cases hs : aid = sizeKey
  · subst hs
    by_cases hk : sizeKey ∈ ord <;> simp [hk]
  · by_cases hk : aid ∈ ord <;> simp [hk, hs]

theorem mem_eventEmits_time (r : RawEventRecord) (tup : EmittedTuple)
    (h : tup ∈ eventEmits r) : tup.2.1 = r.time := by
  rcases r with ⟨t, w, e⟩
  cases e with
  | Batch x => simp [eventEmits] at h; subst h; rfl
  | Merge x =>
      cases hc : x.complete with
      | some c => simp [eventEmits, hc] at h; subst h; rfl
      | none => simp [eventEmits, hc] at h
  | Other => simp [eventEmits] at h

theorem mem_batchEmits (data : List RawEventRecord) (tup : EmittedTuple)
    (h : tup ∈ batchEmits data) : ∃ r ∈ data, tup.2.1 = r.time := by
  rcases List.mem_flatMap.mp h with ⟨r, hr, htup⟩
  exact ⟨r, hr, mem_eventEmits_time r tup htup⟩

theorem mem_allEmits (input : List DeliveredBatch) (tup : EmittedTuple)
    (h : tup ∈ allEmits input) : ∃ b ∈ input, ∃ r ∈ b.data, tup.2.1 = r.time := by
  rcases List.mem_flatMap.mp h with ⟨b, hb, htup⟩
  exact ⟨b, hb, mem_batchEmits b.data tup htup⟩

theorem findA_eq_none_iff (m : List (String × Nat)) (k : String) :
    findA m k = none ↔ k ∉ m.map Prod.fst := by
  induction m with
  | nil => simp [findA]
  | cons p rest ih =>
      by_cases h : p.1 = k
      · simp [findA, h]
      · have h2 : ¬k = p.1 := fun hh => h hh.symm
        simp [findA, h, h2, ih]

theorem findA_append_none {m m2 : List (String × Nat)} {k : String}
    (h : findA m k = none) : findA (m ++ m2) k = findA m2 k := by
  induction m with
  | nil => rfl
  | cons p rest ih =>
      by_cases hp : p.1 = k
      · simp [findA, hp] at h
      · simp only [findA, hp, if_false, List.cons_append] at h ⊢
        exact ih h

theorem allocStreams_nodup (attrs : List String) :
    ∀ (n : Nat) (m : List (String × Nat)), attrs.Nodup →
      (∀ a ∈ attrs, findA m a = none) →
      allocStreams attrs n m = m ++ zipIds attrs n := by
  induction attrs with
  | nil => intro n m _ _; simp [allocStreams, zipIds]
  | cons a rest ih =>
      intro n m hnd hnone
      have hm : findA m a = none := hnone a (List.mem_cons_self a rest)
      have hins : insertA m a n = m ++ [(a, n)] := by
        simp [insertA, (findA_eq_none_iff m a).mp hm]
      have hrest : ∀ b ∈ rest, findA (m ++ [(a, n)]) b = none := by
        intro b hb
        have hba : ¬(a = b) := fun hh => (List.nodup_cons.mp hnd).1 (hh ▸ hb)
        rw [findA_append_none (hnone b (List.mem_cons_of_mem a hb))]
        simp [findA, hba]
      calc allocStreams (a :: rest) n m
          = allocStreams rest (n + 1) (m ++ [(a, n)]) := by
            simp [allocStreams, hins]
        _ = (m ++ [(a, n)]) ++ zipIds rest (n + 1) :=
            ih (n + 1) (m ++ [(a, n)]) (List.nodup_cons.mp hnd).2 hrest
        _ = m ++ zipIds (a :: rest) n := by simp [zipIds]

theorem collectOutputs_zipIds (attrs : List String) :
    ∀ n : Nat, collectOutputs attrs (zipIds attrs n) = some (mkOut attrs n) := by
  induction attrs with
  | nil => intro n; simp [collectOutputs, zipIds, mkOut]
  | cons a rest ih =>
      intro n
      simp [collectOutputs, zipIds, mkOut, removeA, ih (n + 1)]

theorem sourceOutputs_nodup (attrs : List String) (h : attrs.Nodup) :
    sourceOutputs attrs = some (mkOut attrs 0) := by
  have halloc : allocStreams attrs 0 [] = zipIds attrs 0 := by
    have := allocStreams_nodup attrs 0 [] h (fun a _ => by simp [findA])
    simpa using this
  rw [sourceOutputs, halloc, collectOutputs_zipIds]

theorem mkOut_map_fst (attrs : List String) :
    ∀ n : Nat, (mkOut attrs n).map Prod.fst = attrs := by
  induction attrs with
  | nil => intro n; simp [mkOut]
  | cons a rest ih => intro n; simp [mkOut, ih (n + 1)]

theorem mkOut_map_chan (attrs : List String) :
    ∀ n : Nat, (mkOut attrs n).map (fun p => p.2.2) = chanIds n attrs.length := by
  induction attrs with
  | nil => intro n; simp [mkOut, chanIds]
  | cons a rest ih => intro n; simp [mkOut, chanIds, ih (n + 1)]

theorem mem_chanIds_le (len : Nat) :
    ∀ (n x : Nat), x ∈ chanIds n len → n ≤ x := by
  induction len with
  | zero => intro n x hx; simp [chanIds] at hx
  | succ l ih =>
      intro n x hx
      rcases List.mem_cons.mp hx with h | h
      · omega
      · have := ih (n + 1) x h; omega

theorem chanIds_nodup (len : Nat) : ∀ n : Nat, (chanIds n len).Nodup := by
  induction len with
  | zero => intro n; simp [chanIds]
  | succ l ih =>
      intro n
      refine List.nodup_cons.mpr ⟨fun hmem => ?_, ih (n + 1)⟩
      have := mem_chanIds_le l (n + 1) n hmem
      omega

theorem mkOut_config (attrs : List String) :
    ∀ (n : Nat) (p : String × AttributeConfig × Nat), p ∈ mkOut attrs n →
      p.2.1 = AttributeConfig.real_time InputSemantics.Raw := by
  induction attrs with
  | nil => intro n p hp; simp [mkOut] at hp
  | cons a rest ih =>
      intro n p hp
      rcases List.mem_cons.mp hp with h | h
      · subst h; rfl
      · exact ih (n + 1) p h

theorem collectOutputs_config (attrs : List String) :
    ∀ (streams : List (String × Nat)) (out : List (String × AttributeConfig × Nat)),
      collectOutputs attrs streams = some out →
      ∀ p ∈ out, p.2.1 = AttributeConfig.real_time InputSemantics.Raw := by
  induction attrs with
  | nil =>
      intro streams out h p hp
      simp [collectOutputs] at h
      subst h
      simp at hp
  | cons a rest ih =>
      intro streams out h p hp
      simp only [collectOutputs] at h
      cases hr : removeA streams a with
      | none => rw [hr] at h; cases h
      | some q =>
          obtain ⟨ch, st2⟩ := q
          rw [hr] at h
          dsimp only at h
          cases hc : collectOutputs rest st2 with
          | none => rw [hc] at h; cases h
          | some out2 =>
              rw [hc] at h
              cases h
              rcases List.mem_cons.mp hp with h1 | h1
              · subst h1; rfl
              · exact ih st2 out2 hc p h1

theorem runCoreWith_data_only (ord : List String) :
    ∀ (i1 i2 : List DeliveredBatch) (acc : Sessions),
      i1.map DeliveredBatch.data = i2.map DeliveredBatch.data →
      i1.foldl (fun acc b => flushInto acc (processBatch ord b)) acc
        = i2.foldl (fun acc b => flushInto acc (processBatch ord b)) acc := by
  intro i1
  induction i1 with
  | nil =>
      intro i2 acc h
      have : i2 = [] := by
        cases i2 with
        | nil => rfl
        | cons b rest => simp at h
      subst this
      rfl
  | cons b1 rest1 ih =>
      intro i2 acc h
      cases i2 with
      | nil => simp at h
      | cons b2 rest2 =>
          simp only [List.map_cons, List.cons.injEq] at h
          have hb : processBatch ord b1 = processBatch ord b2 := by
            simp [processBatch, h.1]
          simp only [List.foldl_cons, hb]
          exact ih rest2 (flushInto acc (processBatch ord b2)) h.2

/-- C1: for every input event of kind `Merge` with `complete = Some(final)`
and component lengths `l1` and `l2`, the demux writes exactly one tuple into
the size session, with value `final - (l1 + l2)` and multiplicity `+1`,
touching no other session, and the value is negative whenever
`final < l1 + l2`. -/
theorem merge_complete_emits_one_delta (s : Sessions) (l : List EmittedTuple)
    (hs : findA s sizeKey = some l) (t w op l1 l2 final : Nat) :
    findA (processEvent s ⟨t, w, DifferentialEvent.Merge ⟨op, l1, l2, some final⟩⟩) sizeKey
      = some (l ++ [((Value.Eid op,
          Value.Number ((final : Int) - ((l1 + l2 : Nat) : Int))), t, 1)])
    ∧ (∀ aid : String, aid ≠ sizeKey →
        findA (processEvent s ⟨t, w, DifferentialEvent.Merge ⟨op, l1, l2, some final⟩⟩) aid
          = findA s aid)
    ∧ (final < l1 + l2 → (final : Int) - ((l1 + l2 : Nat) : Int) < 0) := by
  refine ⟨?_, ?_, ?_⟩
  · rw [findA_processEvent]
    simp [hs, eventEmits]
  · intro aid ha
    rw [findA_processEvent]
    simp [ha]
  · intro hlt
    push_cast
    omega

/-- Witness for C1: the spec's worked example, a merge of two inputs of
length 6 completing at length 10 at time 5 yields the single size tuple
`((Eid 3, Number (-2)), 5, +1)`, a negative delta. -/
theorem merge_complete_emits_one_delta_witness :
    findA (processEvent [(sizeKey, [])]
        ⟨5, 0, DifferentialEvent.Merge ⟨3, 6, 6, some 10⟩⟩) sizeKey
      = some [((Value.Eid 3, Value.Number (-2)), 5, 1)]
    ∧ (10 : Int) - ((6 + 6 : Nat) : Int) < 0 := by
  have h := merge_complete_emits_one_delta [(sizeKey, [])] [] (by decide) 5 0 3 6 6 10
  refine ⟨?_, h.2.2 (by norm_num)⟩
  have h1 := h.1
  norm_num at h1
  exact h1

/-- C2: for every input event of kind `Batch`, the demux writes exactly one
tuple `((Eid operator, Number length), t, +1)` into the size session, where
`t` is the event's own logical time, touching no other session. -/
theorem batch_emits_one_length (s : Sessions) (l : List EmittedTuple)
    (hs : findA s sizeKey = some l) (t w op len : Nat) :
    findA (processEvent s ⟨t, w, DifferentialEvent.Batch ⟨op, len⟩⟩) sizeKey
      = some (l ++ [((Value.Eid op, Value.Number (len : Int)), t, 1)])
    ∧ ∀ aid : String, aid ≠ sizeKey →
        findA (processEvent s ⟨t, w, DifferentialEvent.Batch ⟨op, len⟩⟩) aid
          = findA s aid := by
  refine ⟨?_, ?_⟩
  · rw [findA_processEvent]
    simp [hs, eventEmits]
  · intro aid ha
    rw [findA_processEvent]
    simp [ha]

/-- Witness for C2: a batch of length 10 from operator 3 at time 5 yields
the single size tuple `((Eid 3, Number 10), 5, +1)`. -/
theorem batch_emits_one_length_witness :
    findA (processEvent [(sizeKey, [])]
        ⟨5, 0, DifferentialEvent.Batch ⟨3, 10⟩⟩) sizeKey
      = some [((Value.Eid 3, Value.Number 10), 5, 1)] := by
  have h := (batch_emits_one_length [(sizeKey, [])] [] (by decide) 5 0 3 10).1
  norm_num at h
  exact h

/-- C3 fails as stated: a session opened for the notification time 5 can
contain a tuple carrying logical time 7, because the demux stamps tuples
with the event's own time, not the notification's. -/
theorem session_time_counterexample :
    findA (processBatch [sizeKey]
        ⟨5, [⟨7, 0, DifferentialEvent.Batch ⟨1, 2⟩⟩]⟩) sizeKey
      = some [((Value.Eid 1, Value.Number 2), 7, 1)]
    ∧ (7 : Nat) ≠ 5 := by decide

/-- C3 amended: every tuple written into the session opened for attribute
`aid` during one delivered batch is destined for the size attribute and
carries the logical time of one of the batch's own source events (not
necessarily the notification time `b.ntime`). -/
theorem session_tuples_carry_event_times (keys : List String) (b : DeliveredBatch)
    (aid : String) (l : List EmittedTuple)
    (h : findA (processBatch keys b) aid = some l)
    (tup : EmittedTuple) (ht : tup ∈ l) :
    aid = sizeKey ∧ tup.2.1 ∈ b.data.map RawEventRecord.time := by
  rw [findA_processBatch] at h
  by_cases hk : aid ∈ keys
  · rw [if_pos hk] at h
    by_cases hs : aid = sizeKey
    · rw [if_pos hs] at h
      obtain rfl : batchEmits b.data = l := Option.some.inj h
      rcases mem_batchEmits b.data tup ht with ⟨r, hr, heq⟩
      exact ⟨hs, heq ▸ List.mem_map_of_mem RawEventRecord.time hr⟩
    · rw [if_neg hs] at h
      obtain rfl : ([] : List EmittedTuple) = l := Option.some.inj h
      simp at ht
  · rw [if_neg hk] at h
    cases h

/-- Witness for C3 amended: in a batch delivered at notification time 5, the
tuple written for an event at time 7 carries time 7, one of the batch's
event times. -/
theorem session_tuples_carry_event_times_witness :
    sizeKey = sizeKey
    ∧ (((Value.Eid 1, Value.Number 2), 7, 1) : EmittedTuple).2.1
        ∈ ([⟨7, 0, DifferentialEvent.Batch ⟨1, 2⟩⟩] :
            List RawEventRecord).map RawEventRecord.time :=
  session_tuples_carry_event_times [sizeKey]
    ⟨5, [⟨7, 0, DifferentialEvent.Batch ⟨1, 2⟩⟩]⟩ sizeKey
    [((Value.Eid 1, Value.Number 2), 7, 1)] (by decide)
    ((Value.Eid 1, Value.Number 2), 7, 1) (by decide)

/-- C4: every emitted tuple's time component is one of the logical times of
the source raw events, and the whole run output is unchanged if the
notification (batch-arrival) times are replaced arbitrarily while the event
records are kept: the demux never stamps tuples with batch-arrival time. -/
theorem tuple_time_from_source_event (attrs : List String)
    (input1 input2 : List DeliveredBatch)
    (h : input1.map DeliveredBatch.data = input2.map DeliveredBatch.data)
    (aid : String) (l : List EmittedTuple) (tup : EmittedTuple)
    (hl : findA (runCore attrs input1) aid = some l) (ht : tup ∈ l) :
    runCore attrs input1 = runCore attrs input2
    ∧ tup.2.1 ∈ input1.flatMap (fun b => b.data.map RawEventRecord.time) := by
  refine ⟨runCoreWith_data_only attrs.dedup input1 input2 _ h, ?_⟩
  rw [runCore, findA_runCoreWith] at hl
  by_cases hk : aid ∈ attrs.dedup
  · rw [if_pos hk] at hl
    by_cases hs : aid = sizeKey
    · rw [if_pos hs] at hl
      obtain rfl : allEmits input1 = l := Option.some.inj hl
      rcases mem_allEmits input1 tup ht with ⟨b, hb, r, hr, heq⟩
      exact List.mem_flatMap.mpr ⟨b, hb, heq ▸ List.mem_map_of_mem RawEventRecord.time hr⟩
    · rw [if_neg hs] at hl
      obtain rfl : ([] : List EmittedTuple) = l := Option.some.inj hl
      simp at ht
  · rw [if_neg hk] at hl
    cases hl

/-- Witness for C4: the tuple produced by an event at time 7 delivered under
notification time 5 carries time 7, and replacing the notification time by 9
leaves the whole run output unchanged. -/
theorem tuple_time_from_source_event_witness :
    runCore [sizeKey] [⟨5, [⟨7, 0, DifferentialEvent.Batch ⟨1, 2⟩⟩]⟩]
      = runCore [sizeKey] [⟨9, [⟨7, 0, DifferentialEvent.Batch ⟨1, 2⟩⟩]⟩]
    ∧ (((Value.Eid 1, Value.Number 2), 7, 1) : EmittedTuple).2.1
        ∈ ([⟨5, [⟨7, 0, DifferentialEvent.Batch ⟨1, 2⟩⟩]⟩] :
            List DeliveredBatch).flatMap (fun b => b.data.map RawEventRecord.time) :=
  tuple_time_from_source_event [sizeKey]
    [⟨5, [⟨7, 0, DifferentialEvent.Batch ⟨1, 2⟩⟩]⟩]
    [⟨9, [⟨7, 0, DifferentialEvent.Batch ⟨1, 2⟩⟩]⟩]
    (by decide) sizeKey [((Value.Eid 1, Value.Number 2), 7, 1)]
    ((Value.Eid 1, Value.Number 2), 7, 1) (by decide) (by decide)

/-- C5: an incomplete merge (`complete = None`) and an event of unrecognized
kind leave the sessions untouched: zero tuples, and no error (the routing
step is total and returns the state unchanged). -/
theorem incomplete_and_unknown_dropped (s : Sessions) (t w op l1 l2 : Nat) :
    processEvent s ⟨t, w, DifferentialEvent.Merge ⟨op, l1, l2, none⟩⟩ = s
    ∧ processEvent s ⟨t, w, DifferentialEvent.Other⟩ = s :=
  ⟨rfl, rfl⟩

/-- C6: if the size key was never requested, every output channel's history
is empty after any run: no tuple derived from a `Batch` or `Merge` event is
emitted anywhere. -/
theorem no_size_request_no_output (attrs : List String) (h : sizeKey ∉ attrs)
    (input : List DeliveredBatch) (aid : String) :
    (findA (runCore attrs input) aid).getD [] = [] := by
  rw [runCore, findA_runCoreWith]
  by_cases hk : aid ∈ attrs.dedup
  · by_cases hs : aid = sizeKey
    · exact absurd (List.mem_dedup.mp (hs ▸ hk)) h
    · simp [hk, hs]
  · simp [hk]

/-- Witness for C6: with only `"a"` requested, a run over a `Batch` and a
complete `Merge` event leaves channel `"a"` empty. -/
theorem no_size_request_no_output_witness :
    (findA (runCore ["a"]
        [⟨5, [⟨5, 0, DifferentialEvent.Batch ⟨3, 10⟩⟩,
              ⟨5, 0, DifferentialEvent.Merge ⟨3, 6, 6, some 10⟩⟩]⟩]) "a").getD []
      = [] :=
  no_size_request_no_output ["a"] (by decide)
    [⟨5, [⟨5, 0, DifferentialEvent.Batch ⟨3, 10⟩⟩,
          ⟨5, 0, DifferentialEvent.Merge ⟨3, 6, 6, some 10⟩⟩]⟩] "a"

/-- C7 fails as stated: requesting the same key twice makes the final
collection of `source` hit `streams.remove(aid).unwrap()` on an
already-removed key, a panic (modelled as `none`) rather than a collapse. -/
theorem duplicate_keys_panic :
    sourceOutputs [sizeKey, sizeKey] = none := by decide

/-- C7 amended: for a duplicate-free request list, `source` returns exactly
one output channel per key in request order, all keys distinct from each
other's channels: the key list is reproduced exactly and the allocated
channel ids are pairwise distinct; duplicate keys are not collapsed but
cause a failure. -/
theorem one_channel_per_key (attrs : List String) (h : attrs.Nodup) :
    sourceOutputs attrs = some (mkOut attrs 0)
    ∧ (mkOut attrs 0).map Prod.fst = attrs
    ∧ ((mkOut attrs 0).map (fun p => p.2.2)).Nodup := by
  refine ⟨sourceOutputs_nodup attrs h, mkOut_map_fst attrs 0, ?_⟩
  rw [mkOut_map_chan]
  exact chanIds_nodup attrs.length 0

/-- Witness for C7 amended: two distinct keys get the two distinct channels
0 and 1. -/
theorem one_channel_per_key_witness :
    sourceOutputs ["a", "b"] = some (mkOut ["a", "b"] 0)
    ∧ (mkOut ["a", "b"] 0).map Prod.fst = ["a", "b"]
    ∧ ((mkOut ["a", "b"] 0).map (fun p => p.2.2)).Nodup :=
  one_channel_per_key ["a", "b"] (by decide)

/-- C8: the demux is deterministic across runs: two fresh instances on the
same requested attribute set and identical input produce identical
per-channel outputs, whatever session-opening orders (the HashMap iteration
orders, the one run-to-run degree of freedom) the two runs use. -/
theorem replay_deterministic (attrs ord1 ord2 : List String)
    (h1 : ord1.Perm attrs.dedup) (h2 : ord2.Perm attrs.dedup)
    (input : List DeliveredBatch) (aid : String) :
    findA (runCoreWith ord1 input) aid = findA (runCoreWith ord2 input) aid := by
  rw [findA_runCoreWith, findA_runCoreWith]
  have hm : aid ∈ ord1 ↔ aid ∈ ord2 := by
    rw [h1.mem_iff, h2.mem_iff]
  by_cases hk : aid ∈ ord1
  · simp [hk, hm.mp hk]
  · have hk2 : aid ∉ ord2 := fun hh => hk (hm.mpr hh)
    simp [hk, hk2]

/-- Witness for C8: on a concrete input, the two session-opening orders of
the key set of a two-attribute request produce the same size channel. -/
theorem replay_deterministic_witness :
    findA (runCoreWith [sizeKey, "a"]
        [⟨5, [⟨5, 0, DifferentialEvent.Batch ⟨3, 10⟩⟩]⟩]) sizeKey
      = findA (runCoreWith ["a", sizeKey]
        [⟨5, [⟨5, 0, DifferentialEvent.Batch ⟨3, 10⟩⟩]⟩]) sizeKey :=
  replay_deterministic ["a", sizeKey] [sizeKey, "a"] ["a", sizeKey]
    (by decide) (by decide)
    [⟨5, [⟨5, 0, DifferentialEvent.Batch ⟨3, 10⟩⟩]⟩] sizeKey

/-- C9 fails as stated: the channel descriptor's input-semantics tag is the
constant `InputSemantics::Raw` chosen by the core itself (line 112), so a
caller wanting any other tag, say `Logical`, does not see it forwarded. -/
theorem semantics_not_passed_through :
    sourceOutputs ["a"]
      = some [("a", AttributeConfig.real_time InputSemantics.Raw, 0)]
    ∧ AttributeConfig.real_time InputSemantics.Raw
        ≠ AttributeConfig.real_time InputSemantics.Logical := by decide

/-- C9 amended: every channel descriptor returned by `source` carries the
fixed configuration `AttributeConfig::real_time(InputSemantics::Raw)`; the
tag is chosen by the core, not supplied or passed through by the caller. -/
theorem semantics_always_raw (attrs : List String)
    (out : List (String × AttributeConfig × Nat))
    (h : sourceOutputs attrs = some out)
    (p : String × AttributeConfig × Nat) (hp : p ∈ out) :
    p.2.1 = AttributeConfig.real_time InputSemantics.Raw := by
  rw [sourceOutputs] at h
  exact collectOutputs_config attrs (allocStreams attrs 0 []) out h p hp

/-- Witness for C9 amended: the descriptor returned for the single requested
key `"a"` carries `real_time Raw`. -/
theorem semantics_always_raw_witness :
    (("a", AttributeConfig.real_time InputSemantics.Raw, 0) :
        String × AttributeConfig × Nat).2.1
      = AttributeConfig.real_time InputSemantics.Raw :=
  semantics_always_raw ["a"]
    [("a", AttributeConfig.real_time InputSemantics.Raw, 0)] (by decide)
    ("a", AttributeConfig.real_time InputSemantics.Raw, 0) (by decide)

/-- C10: a channel for any requested key other than
`"differential.event/size"` receives zero tuples, for every possible input
sequence. -/
theorem non_size_channels_empty (attrs : List String) (aid : String)
    (h : aid ≠ sizeKey) (input : List DeliveredBatch) :
    (findA (runCore attrs input) aid).getD [] = [] := by
  rw [runCore, findA_runCoreWith]
  by_cases hk : aid ∈ attrs.dedup <;> simp [hk, h]

/-- Witness for C10: with `"other"` requested alongside the size key, a run
over `Batch` and complete `Merge` events leaves channel `"other"` empty. -/
theorem non_size_channels_empty_witness :
    (findA (runCore [sizeKey, "other"]
        [⟨5, [⟨5, 0, DifferentialEvent.Batch ⟨3, 10⟩⟩,
              ⟨5, 0, DifferentialEvent.Merge ⟨3, 6, 6, some 10⟩⟩]⟩]) "other").getD []
      = [] :=
  non_size_channels_empty [sizeKey, "other"] "other" (by decide)
    [⟨5, [⟨5, 0, DifferentialEvent.Batch ⟨3, 10⟩⟩,
          ⟨5, 0, DifferentialEvent.Merge ⟨3, 6, 6, some 10⟩⟩]⟩]

end DifferentialLogging
